import Mathlib

/-!
Verification development for the otel-api-scraper repository.

The definitions below are a shallow embedding of the Python sources:
  - src/otel_api_scraper/utils.py          (split_key, lookup_path, matches,
                                            fingerprint_payload, compute_hash)
  - src/otel_api_scraper/fingerprints.py   (MemoryFingerprintStore, SqliteFingerprintStore)
  - src/otel_api_scraper/pipeline.py       (RecordPipeline)
  - src/otel_api_scraper/scraper_engine.py (ScraperEngine.scrape_source, _source_semaphore)

Records are decoded JSON objects; they are modelled by the inductive type
Json below, with Python dicts as ordered association lists (Python dicts
preserve insertion order, which is what sort_keys serialization and the
fingerprint invariants are about).  Timestamps are modelled as integers
(the sqlite store genuinely stores int(timestamp); the memory store's
datetime arithmetic is modelled on the same integer clock).
-/

namespace OtelScraper

/-- JSON values as decoded by response.json(): objects are ordered key/value
lists, mirroring Python dict insertion order. Numbers are modelled as
integers (the claims under study do not depend on float formatting). -/
inductive Json where
  | null : Json
  | bool (b : Bool) : Json
  | num (n : Int) : Json
  | str (s : String) : Json
  | arr (items : List Json) : Json
  | obj (entries : List (String × Json)) : Json

/-- Escape a string for JSON serialization (quote and backslash; enough for
the serialization-equality facts proved here). -/
def escapeString (s : String) : String :=
  s.foldl (fun acc c =>
    acc ++ (if c = '"' then "\\\"" else if c = '\\' then "\\\\" else String.singleton c)) ""

/-- Comma-join as produced by json.dumps default separators. -/
def joinComma (parts : List String) : String :=
  String.intercalate ", " parts

mutual

/-- Serialize a Json value in list order, with json.dumps default
separators.  dumpsSorted below composes this with canon to model
json.dumps(x, sort_keys=True). -/
def dumps : Json → String
  | .null => "null"
  | .bool b => if b then "true" else "false"
  | .num n => toString n
  | .str s => "\"" ++ escapeString s ++ "\""
  | .arr items => "[" ++ joinComma (dumpsList items) ++ "]"
  | .obj entries => "\x7b" ++ joinComma (dumpsEntries entries) ++ "\x7d"

def dumpsList : List Json → List String
  | [] => []
  | x :: xs => dumps x :: dumpsList xs

def dumpsEntries : List (String × Json) → List String
  | [] => []
  | e :: rest => ("\"" ++ escapeString e.1 ++ "\": " ++ dumps e.2) :: dumpsEntries rest

end

/-- Boolean key order used to sort object entries, as sort_keys does. -/
def keyLe (a b : String × Json) : Bool :=
  decide (a.1 ≤ b.1)

mutual

/-- Recursively sort every object's entries by key; serializing the result
in list order equals sorted-key serialization. -/
def canon : Json → Json
  | .null => .null
  | .bool b => .bool b
  | .num n => .num n
  | .str s => .str s
  | .arr items => .arr (canonList items)
  | .obj entries => .obj (List.mergeSort (canonEntries entries) keyLe)

def canonList : List Json → List Json
  | [] => []
  | x :: xs => canon x :: canonList xs

def canonEntries : List (String × Json) → List (String × Json)
  | [] => []
  | e :: rest => (e.1, canon e.2) :: canonEntries rest

end

/-- json.dumps(x, sort_keys=True): serialize with all object keys sorted. -/
def dumpsSorted (x : Json) : String :=
  dumps (canon x)

mutual

/-- Structural equality on the ordered Json model. -/
def jsonEq : Json → Json → Bool
  | .null, .null => true
  | .bool a, .bool b => a == b
  | .num a, .num b => a == b
  | .str a, .str b => a == b
  | .arr xs, .arr ys => jsonEqList xs ys
  | .obj es, .obj fs => jsonEqEntries es fs
  | _, _ => false

def jsonEqList : List Json → List Json → Bool
  | [], [] => true
  | x :: xs, y :: ys => jsonEq x y && jsonEqList xs ys
  | _, _ => false

def jsonEqEntries : List (String × Json) → List (String × Json) → Bool
  | [], [] => true
  | e :: es, f :: fs => (e.1 == f.1) && jsonEq e.2 f.2 && jsonEqEntries es fs
  | _, _ => false

end

/-- Python == on decoded JSON: dict comparison ignores key order, so compare
canonical forms structurally.  (Numeric cross-type equalities such as
True == 1 are not modelled.) -/
def pyEq (a b : Json) : Bool :=
  jsonEq (canon a) (canon b)

/-- utils.split_key: split a dot-path, honoring the escape sequence slash-dot
as a literal dot inside a segment. -/
def splitKeyAux : List Char → String → List String
  | [], buf => if buf = "" then [] else [buf]
  | '/' :: '.' :: rest, buf => splitKeyAux rest (buf ++ ".")
  | '.' :: rest, buf =>
    if buf = "" then splitKeyAux rest "" else buf :: splitKeyAux rest ""
  | c :: rest, buf => splitKeyAux rest (buf.push c)

/-- utils.split_key on a path string. -/
def split_key (path : String) : List String :=
  splitKeyAux path.data ""

/-- First-match association-list lookup (Python dict indexing). -/
def lookupEntry {β : Type} : List (String × β) → String → Option β
  | [], _ => none
  | e :: rest, h => if e.1 = h then some e.2 else lookupEntry rest h

/-- Walk a record along already-split path segments; a missing key or a
non-object intermediate yields null (Python returns None, which is the
same value as JSON null). -/
def walkSegs : Json → List String → Json
  | cur, [] => cur
  | cur, part :: rest =>
    match cur with
    | .obj es =>
      match lookupEntry es part with
      | some v => walkSegs v rest
      | none => .null
    | _ => .null

/-- utils.lookup_path for record-scoped paths (root=None).  A path starting
with the root sentinel raises ShapeMismatch in the source; the theorems
below exclude such paths by hypothesis. -/
def lookup_path (record : Json) (path : String) : Json :=
  walkSegs record (split_key path)

/-- Prefix test on character lists (helper for the Python substring test). -/
def charsHasPfx : List Char → List Char → Bool
  | _, [] => true
  | [], _ :: _ => false
  | h :: t, n :: ns => h == n && charsHasPfx t ns

/-- Substring test on character lists (Python needle in haystack). -/
def charsContains : List Char → List Char → Bool
  | [], needle => needle.isEmpty
  | h :: t, needle => charsHasPfx (h :: t) needle || charsContains t needle

/-- Predicate match types accepted by utils.matches. -/
inductive MatchType where
  | equals : MatchType
  | not_equals : MatchType
  | inOp : MatchType
  | regex : MatchType
deriving DecidableEq

/-- utils.matches(rule_type, candidate, expected).  The candidate is the
lookup_path result (null models Python None).  re.search is abstracted as
the function argument rx: every theorem about the pipeline below is
quantified over rx, so nothing depends on a particular regex semantics.
Python raises TypeError on heterogeneous string containment; that branch
evaluates to false here and is not relied on by any theorem. -/
def pyMatches (rx : Json → Json → Bool) : MatchType → Json → Json → Bool
  | .equals, candidate, expected => pyEq candidate expected
  | .not_equals, candidate, expected => !pyEq candidate expected
  | .inOp, candidate, expected =>
    match expected with
    | .arr xs => xs.any (fun x => pyEq x candidate)
    | _ =>
      match candidate with
      | .arr ys => ys.any (fun y => pyEq y expected)
      | .str cs =>
        match expected with
        | .str es => charsContains cs.data es.data
        | _ => false
      | _ => false
  | .regex, candidate, expected =>
    match candidate with
    | .null => false
    | c => rx expected c

/-- config.MatchPredicate. -/
structure MatchPredicate where
  field : String
  matchType : MatchType
  value : Json

/-- config.DropRule: any-of predicates. -/
structure DropRule where
  anyOf : List MatchPredicate

/-- config.KeepRule: all-of predicates. -/
structure KeepRule where
  allOf : List MatchPredicate

/-- config.FilterLimits. -/
structure FilterLimits where
  maxRecordsPerScrape : Option Int

/-- config.FiltersConfig. -/
structure FiltersConfig where
  drop : List DropRule
  keep : List KeepRule
  limits : FilterLimits

/-- RecordPipeline._matches_drop: the record matches some predicate of some
drop rule. -/
def matchesDrop (rx : Json → Json → Bool) (record : Json) (filters : FiltersConfig) : Bool :=
  filters.drop.any (fun rule =>
    rule.anyOf.any (fun p => pyMatches rx p.matchType (lookup_path record p.field) p.value))

/-- RecordPipeline._matches_keep: some keep rule has all its predicates
matching the record. -/
def matchesKeep (rx : Json → Json → Bool) (record : Json) (filters : FiltersConfig) : Bool :=
  filters.keep.any (fun rule =>
    rule.allOf.all (fun p => pyMatches rx p.matchType (lookup_path record p.field) p.value))

/-- RecordPipeline._apply_filters. -/
def applyFilters (rx : Json → Json → Bool) (records : List Json)
    (filters : FiltersConfig) : List Json :=
  if filters.drop.isEmpty && filters.keep.isEmpty then records
  else
    records.filter (fun record =>
      !matchesDrop rx record filters &&
        (filters.keep.isEmpty || matchesKeep rx record filters))

/-- RecordPipeline._apply_limits: truncate to maxRecordsPerScrape when the
configured limit is a positive number. -/
def applyLimits (records : List Json) (filters : FiltersConfig) : List Json :=
  match filters.limits.maxRecordsPerScrape with
  | none => records
  | some limit => if limit ≤ 0 then records else records.take limit.toNat

/-- utils.fingerprint_payload: the dict comprehension over fingerprint keys
collapses duplicate keys (all computing the same value), keeping first
position. -/
def dedupKeys : List (String × Json) → List (String × Json)
  | [] => []
  | e :: rest => e :: dedupKeys (rest.filter (fun f => f.1 ≠ e.1))
termination_by l => l.length
decreasing_by
  simp only [List.length_cons]
  exact Nat.lt_succ_of_le (List.length_filter_le _ _)

/-- hashlib.sha256(payload).hexdigest(), modelled as a fixed deterministic
digest of the payload string.  The internals of SHA-256 are library code,
not part of this repository; the fingerprint claims depend only on the
digest being a function of the payload. -/
def sha256hex (s : String) : String :=
  toString (s.foldl (fun acc c => (acc * 65599 + c.toNat) % 18446744073709551616) 5381)

/-- utils.compute_hash. -/
def compute_hash (payload : String) : String :=
  sha256hex payload

/-- utils.fingerprint_payload(record, keys, source): source-name prefix plus
sorted-key JSON serialization of the full record, or of the looked-up
subset when a non-empty key list is configured (Python truthiness: an
empty list behaves like None). -/
def fingerprint_payload (record : Json) (keys : Option (List String)) (source : String) : String :=
  match keys with
  | some ks =>
    if ks.isEmpty then source ++ ":" ++ dumpsSorted record
    else
      source ++ ":" ++ dumpsSorted (.obj (dedupKeys (ks.map (fun k => (k, lookup_path record k)))))
  | none => source ++ ":" ++ dumpsSorted record

/-- MemoryFingerprintStore restricted to one source: the inner dict
mapping fingerprint hash to last-seen time, plus the store's per-source
capacity.  (The outer dict is keyed by source name; all operations under
study act on a single source's bucket.) -/
structure MemStore where
  maxEntries : Nat
  entries : List (String × Int)

/-- Keyed in-place update: replace the value at an existing key (keeping
its position, as Python dict assignment and the SQL upsert both do), else
append a fresh entry at the end. -/
def upsertWith {β : Type} (f : β → β) (v0 : β) : List (String × β) → String → List (String × β)
  | [], h => [(h, v0)]
  | e :: rest, h => if e.1 = h then (h, f e.2) :: rest else e :: upsertWith f v0 rest h

/-- Python dict item assignment: update the existing key in place, else
append at the end. -/
def upsert {β : Type} (es : List (String × β)) (h : String) (v : β) : List (String × β) :=
  upsertWith (fun _ => v) v es h

/-- Python dict.pop(key): drop the entry with the given key. -/
def removeKey {β : Type} (entries : List (String × β)) (h : String) : List (String × β) :=
  entries.filter (fun e => e.1 ≠ h)

/-- Evict the k entries with smallest timestamp (ascending stable sort by
the timestamp projection, pop the first k keys).  Shared shape of
MemoryFingerprintStore.touch's eviction loop and
SqliteFingerprintStore._enforce_capacity's DELETE ... ORDER BY last_seen
ASC LIMIT k. -/
def evictSmallest {β : Type} (tm : β → Int) (entries : List (String × β)) (k : Nat) :
    List (String × β) :=
  let sortedItems := entries.mergeSort (fun a b => decide (tm a.2 ≤ tm b.2))
  let evictKeys := (sortedItems.take k).map Prod.fst
  entries.filter (fun e => decide (e.1 ∉ evictKeys))

/-- Number of entries Python's sorted_items[: -max_entries] slice denotes:
the negative-stop slice is empty when max_entries = 0, else it holds
length - max_entries items. -/
def pySliceCount (length maxEntries : Nat) : Nat :=
  if maxEntries = 0 then 0 else length - maxEntries

/-- MemoryFingerprintStore.contains: miss on absent hash; a stale entry is
popped and reported absent; fresh entries hit.  now models utc_now(). -/
def memContains (st : MemStore) (h : String) (ttlSeconds : Int) (now : Int) :
    Bool × MemStore :=
  match lookupEntry st.entries h with
  | none => (false, st)
  | some lastSeen =>
    if now - lastSeen > ttlSeconds then (false, ⟨st.maxEntries, removeKey st.entries h⟩)
    else (true, st)

/-- MemoryFingerprintStore.touch: record now for the hash, then, when the
bucket exceeds max_entries, pop the keys of sorted_items[: -max_entries]
(ascending last-seen). -/
def memTouch (st : MemStore) (h : String) (now : Int) : MemStore :=
  let entries := upsert st.entries h now
  if entries.length > st.maxEntries then
    ⟨st.maxEntries, evictSmallest id entries (pySliceCount entries.length st.maxEntries)⟩
  else ⟨st.maxEntries, entries⟩

/-- One row of the sqlite fingerprints table for a fixed source. -/
structure SqlMeta where
  firstSeen : Int
  lastSeen : Int
  ttl : Int
deriving DecidableEq

/-- SqliteFingerprintStore restricted to one source. -/
structure SqlStore where
  maxEntries : Nat
  entries : List (String × SqlMeta)

/-- The sqlite upsert: ON CONFLICT update last_seen and ttl, keep
first_seen; insert otherwise. -/
def sqlUpsert (es : List (String × SqlMeta)) (h : String) (now ttlSeconds : Int) :
    List (String × SqlMeta) :=
  upsertWith (fun m => ⟨m.firstSeen, now, ttlSeconds⟩) ⟨now, now, ttlSeconds⟩ es h

/-- SqliteFingerprintStore.contains: effective TTL is the stored row ttl
when non-zero (Python row_ttl or ttl_seconds), else the caller's; stale
rows are deleted inline and reported absent. -/
def sqlContains (st : SqlStore) (h : String) (ttlSeconds : Int) (now : Int) :
    Bool × SqlStore :=
  match lookupEntry st.entries h with
  | none => (false, st)
  | some row =>
    let effectiveTtl := if row.ttl ≠ 0 then row.ttl else ttlSeconds
    if now - row.lastSeen > effectiveTtl then (false, ⟨st.maxEntries, removeKey st.entries h⟩)
    else (true, st)

/-- SqliteFingerprintStore.touch followed by _enforce_capacity: upsert,
then when the per-source count exceeds max_entries delete the overflow
ordered by ascending last_seen. -/
def sqlTouch (st : SqlStore) (h : String) (ttlSeconds : Int) (now : Int) : SqlStore :=
  let entries := sqlUpsert st.entries h now ttlSeconds
  if entries.length > st.maxEntries then
    ⟨st.maxEntries,
      evictSmallest (fun m => m.lastSeen) entries (entries.length - st.maxEntries)⟩
  else ⟨st.maxEntries, entries⟩

/-- A sequence of MemoryFingerprintStore.touch operations (hash, now)
starting from an empty store of the given capacity. -/
def memTouchSeq (maxEntries : Nat) (ops : List (String × Int)) : MemStore :=
  ops.foldl (fun st op => memTouch st op.1 op.2) ⟨maxEntries, []⟩

/-- A sequence of SqliteFingerprintStore.touch operations
(hash, ttl, now) starting from an empty store of the given capacity. -/
def sqlTouchSeq (maxEntries : Nat) (ops : List (String × Int × Int)) : SqlStore :=
  ops.foldl (fun st op => sqlTouch st op.1 op.2.1 op.2.2) ⟨maxEntries, []⟩

/-- config.DeltaDetectionConfig fields used by the pipeline. -/
structure DeltaDetectionConfig where
  enabled : Bool
  modeIsKeys : Bool
  fingerprintKeys : Option (List String)
  ttlSeconds : Option Int

/-- Pipeline last-run statistics. -/
structure Stats where
  hits : Nat
  misses : Nat
  total : Nat
deriving DecidableEq

/-- Result of the dedup stage: kept records, stats, the store after the
batch, and how many times store.contains was consulted. -/
structure DedupResult where
  kept : List Json
  stats : Stats
  store : MemStore
  consults : Nat

/-- Loop body of RecordPipeline._apply_delta_detection over the memory
store.  clock gives the utc_now() value observed while processing the
k-th record (the store operations for one record share one instant). -/
def dedupLoop (sourceName : String) (keys : Option (List String)) (ttl : Int)
    (clock : Nat → Int) : List Json → MemStore → Nat → Nat → Nat → List Json →
    Nat → DedupResult
  | [], store, hits, misses, consults, keptRev, _ =>
    ⟨keptRev.reverse, ⟨hits, misses, hits + misses⟩, store, consults⟩
  | record :: rest, store, hits, misses, consults, keptRev, k =>
    let payload := fingerprint_payload record keys sourceName
    let fpHash := compute_hash payload
    let res := memContains store fpHash ttl (clock k)
    if res.1 then
      dedupLoop sourceName keys ttl clock rest res.2 (hits + 1) misses (consults + 1)
        keptRev (k + 1)
    else
      let touched := memTouch res.2 fpHash (clock k)
      dedupLoop sourceName keys ttl clock rest touched hits (misses + 1) (consults + 1)
        (record :: keptRev) (k + 1)

/-- RecordPipeline._apply_delta_detection: skip (reporting every record as
a miss) when delta detection is disabled; otherwise dedup against the
fingerprint store with ttl = ttlSeconds or defaultTtlSeconds (Python
or-truthiness) and keys from fingerprintMode. -/
def applyDeltaDetection (dd : DeltaDetectionConfig) (defaultTtlSeconds : Int)
    (sourceName : String) (clock : Nat → Int) (records : List Json) (store : MemStore) :
    DedupResult :=
  if !dd.enabled then
    ⟨records, ⟨0, records.length, records.length⟩, store, 0⟩
  else
    let ttl := match dd.ttlSeconds with
      | some t => if t ≠ 0 then t else defaultTtlSeconds
      | none => defaultTtlSeconds
    let keys := if dd.modeIsKeys then dd.fingerprintKeys else none
    dedupLoop sourceName keys ttl clock records store 0 0 0 [] 0

/-- RecordPipeline.run: filters, then limits, then delta detection.  The
result carries last_stats as left by the final stage. -/
def pipelineRun (rx : Json → Json → Bool) (filters : FiltersConfig)
    (dd : DeltaDetectionConfig) (defaultTtlSeconds : Int) (sourceName : String)
    (clock : Nat → Int) (records : List Json) (store : MemStore) : DedupResult :=
  let filtered := applyFilters rx records filters
  let limited := applyLimits filtered filters
  applyDeltaDetection dd defaultTtlSeconds sourceName clock limited store

/-- ScraperEngine._source_semaphore capacity: Python
source.scrape.maxConcurrency or defaultSourceConcurrency, where or is
truthiness-based (None and 0 both fall back; config validation forbids 0). -/
def sourceSemaphoreLimit (maxConcurrency : Option Int) (defaultSourceConcurrency : Int) : Int :=
  match maxConcurrency with
  | some m => if m ≠ 0 then m else defaultSourceConcurrency
  | none => defaultSourceConcurrency

/-- The per-source configuration fields scrape_source reads directly. -/
structure SrcCfg where
  name : String
  runFirstScrape : Bool
  apiType : String

/-- Behaviors of the collaborators of one scrape_source tick.  W is the
window type and R the record type.  Store, planner, auth and telemetry
operations may raise (modelled by the Bool flags and the Except value);
run_window never raises because it catches ShapeMismatch and Exception
internally, returning the processed records together with an errored
flag. -/
structure EngineEnv (W R : Type) where
  getFail : Bool
  setFail : Bool
  computeWindows : Except Unit (List W)
  authFail : Bool
  runWindow : W → List R × Bool
  telemetryFail : Bool

/-- Observable outcome of one scrape_source tick: the state-store value for
the source after the tick, how many windows were handed to run_window
(each performs exactly one fetch attempt), the status string recorded by
self-telemetry in the finally block, len(all_records), and whether
scrape_source propagated an exception. -/
structure TickTrace where
  lastSuccess : Option Int
  fetchAttempts : Nat
  status : String
  emitted : Nat
  raised : Bool
deriving DecidableEq

/-- ScraperEngine.scrape_source for one source, over an integer clock.
startTime is the utc_now() taken at tick entry; stored is the state
store's current last-success value for the source.  The body is a
try/finally with no except clause: any exception from the state store,
window planning, auth construction, or the telemetry recording in the
finally block propagates (raised = true), while per-window errors are
absorbed by run_window.  The final set_last_success call is executed
whenever the fan-out completes, regardless of window errors.  Emission
runs as a detached task whose exceptions are caught inside it, so it does
not affect the trace. -/
def scrapeSource {W R : Type} (cfg : SrcCfg) (env : EngineEnv W R) (startTime : Int)
    (stored : Option Int) : TickTrace :=
  let fin := fun (lastSuccess : Option Int) (fetchAttempts : Nat) (status : String)
      (emitted : Nat) (raisedInBody : Bool) =>
    ⟨lastSuccess, fetchAttempts, status, emitted, raisedInBody || env.telemetryFail⟩
  if env.getFail then fin stored 0 "success" 0 true
  else if stored.isNone && !cfg.runFirstScrape then
    if env.setFail then fin stored 0 "success" 0 true
    else fin (some startTime) 0 "success" 0 false
  else
    match env.computeWindows with
    | .error _ => fin stored 0 "success" 0 true
    | .ok windows =>
      if env.authFail then fin stored 0 "success" 0 true
      else
        let results := windows.map env.runWindow
        let hadErrors := results.any (fun chunk => chunk.2)
        let allRecords := results.foldl (fun acc chunk => acc ++ chunk.1) []
        let status := if hadErrors then "error" else "success"
        if env.setFail then fin stored windows.length status allRecords.length true
        else fin (some startTime) windows.length status allRecords.length false

mutual

/-- Two decoded JSON values are equal as key-value maps: equal scalars,
pointwise-related arrays, and objects whose entry lists are permutations
of each other with equal keys and map-equal values (Python dict keys are
unique, hence the Nodup requirement). -/
def KeyPerm : Json → Json → Prop
  | .null, b => b = .null
  | .bool x, b => b = .bool x
  | .num n, b => b = .num n
  | .str s, b => b = .str s
  | .arr xs, b => ∃ ys, b = .arr ys ∧ KeyPermList xs ys
  | .obj es, b => ∃ fs fs2, b = .obj fs ∧ (es.map Prod.fst).Nodup ∧
      KeyPermEntries es fs2 ∧ List.Perm fs2 fs

def KeyPermList : List Json → List Json → Prop
  | [], ys => ys = []
  | x :: xs, ys => ∃ y ys2, ys = y :: ys2 ∧ KeyPerm x y ∧ KeyPermList xs ys2

def KeyPermEntries : List (String × Json) → List (String × Json) → Prop
  | [], fs => fs = []
  | e :: es, fs => ∃ f fs2, fs = f :: fs2 ∧ e.1 = f.1 ∧ KeyPerm e.2 f.2 ∧ KeyPermEntries es fs2

end

/-- C3: for a source with runFirstScrape=false and no stored last-success
value, a tick of scrape_source performs no fetch (zero windows are handed
to run_window), writes the tick's start time as the new last-success
value, and completes with success status without raising, provided the
state store and telemetry collaborators behave normally. -/
theorem scrape_skips_first_tick_without_watermark {W R : Type} (cfg : SrcCfg)
    (env : EngineEnv W R) (startTime : Int)
    (hRun : cfg.runFirstScrape = false)
    (hGet : env.getFail = false) (hSet : env.setFail = false)
    (hTel : env.telemetryFail = false) :
    scrapeSource cfg env startTime none =
      ⟨some startTime, 0, "success", 0, false⟩ := by
  simp [scrapeSource, hRun, hGet, hSet, hTel]

/-- Witness for C3 at a concrete range source and benign environment. -/
theorem scrape_skips_first_tick_without_watermark_witness :
    scrapeSource ⟨"svc", false, "range"⟩
      (⟨false, false, .ok [()], false, fun _ => ([(Json.null)], false), false⟩ :
        EngineEnv Unit Json) 10 none =
      ⟨some 10, 0, "success", 0, false⟩ :=
  scrape_skips_first_tick_without_watermark _ _ 10 rfl rfl rfl rfl

/-- C1 counterexample: a tick whose single window errored (run_window
reports errored=true) still overwrites the stored last-success value with
the tick start time, while recording error status; the claim says an
errored tick leaves the stored value unchanged. -/
theorem scrape_watermark_written_despite_window_error :
    (scrapeSource ⟨"svc", true, "range"⟩
        (⟨false, false, .ok [()], false, fun _ => ([], true), false⟩ :
          EngineEnv Unit Json) 10 (some 5)) =
      ⟨some 10, 1, "error", 0, false⟩ := by
  rfl

/-- C1 amended: scrape_source writes last-success = tick start time on
every tick in which the store, planner and auth collaborators do not
raise, regardless of whether any window errored (the final
set_last_success call is unconditional); the skip branch also writes it. -/
theorem scrape_watermark_unconditional_on_completion {W R : Type} (cfg : SrcCfg)
    (env : EngineEnv W R) (startTime : Int) (stored : Option Int) (ws : List W)
    (hGet : env.getFail = false) (hSet : env.setFail = false)
    (hWin : env.computeWindows = .ok ws) (hAuth : env.authFail = false) :
    (scrapeSource cfg env startTime stored).lastSuccess = some startTime := by
  simp only [scrapeSource, hGet, hSet, hWin, hAuth]
  split_ifs <;> simp_all

/-- Witness for the amended C1 at a concrete errored-window tick. -/
theorem scrape_watermark_unconditional_on_completion_witness :
    (scrapeSource ⟨"svc", true, "range"⟩
        (⟨false, false, .ok [()], false, fun _ => ([], true), false⟩ :
          EngineEnv Unit Json) 10 (some 5)).lastSuccess = some 10 :=
  scrape_watermark_unconditional_on_completion _ _ 10 (some 5) [()] rfl rfl rfl rfl

/-- C2 counterexample: when the state store's get_last_success raises, the
exception propagates out of scrape_source (the tick body is a try/finally
with no except clause), contradicting the claim that scrape_source never
raises for any behavior of its collaborators. -/
theorem scrape_raises_on_store_failure :
    (scrapeSource ⟨"svc", true, "range"⟩
        (⟨true, false, .ok [], false, fun _ => ([], false), false⟩ :
          EngineEnv Unit Json) 0 none).raised = true := by
  rfl

/-- C2 amended: errors arising inside a window's fetch, parse, or pipeline
step never propagate out of scrape_source (run_window catches them), for
every window outcome; but exceptions raised by the state store, window
planning, auth construction, or the telemetry recording in the finally
block do propagate. -/
theorem scrape_window_errors_never_propagate {W R : Type} (cfg : SrcCfg)
    (env : EngineEnv W R) (startTime : Int) (stored : Option Int) (ws : List W)
    (hGet : env.getFail = false) (hSet : env.setFail = false)
    (hWin : env.computeWindows = .ok ws) (hAuth : env.authFail = false)
    (hTel : env.telemetryFail = false) :
    (scrapeSource cfg env startTime stored).raised = false := by
  simp only [scrapeSource, hGet, hSet, hWin, hAuth, hTel]
  split_ifs <;> simp_all

/-- Witness for the amended C2 at a concrete tick with an errored window. -/
theorem scrape_window_errors_never_propagate_witness :
    (scrapeSource ⟨"svc", true, "range"⟩
        (⟨false, false, .ok [(), ()], false, fun _ => ([], true), false⟩ :
          EngineEnv Unit Json) 10 (some 5)).raised = false :=
  scrape_window_errors_never_propagate _ _ 10 (some 5) [(), ()] rfl rfl rfl rfl rfl

/-- C8 counterexample: with scrape.maxConcurrency = 10 and
defaultSourceConcurrency = 4 the engine builds a semaphore of capacity 10
(the Python or-expression takes the configured value), not
min(10, 4) = 4 as the claim states. -/
theorem source_semaphore_limit_not_min :
    sourceSemaphoreLimit (some 10) 4 = 10 ∧
      sourceSemaphoreLimit (some 10) 4 ≠ min 10 4 := by
  decide

/-- C8 amended: the per-source semaphore capacity is scrape.maxConcurrency
when it is set (config validation guarantees it is at least 1), and
defaultSourceConcurrency otherwise; it is not the minimum of the two. -/
theorem source_semaphore_limit_or_fallback (m d : Int) (hm : 1 ≤ m) :
    sourceSemaphoreLimit (some m) d = m ∧ sourceSemaphoreLimit none d = d := by
  refine ⟨?_, rfl⟩
  have hne : m ≠ 0 := by omega
  simp [sourceSemaphoreLimit, hne]

/-- Witness for the amended C8 at concrete capacities. -/
theorem source_semaphore_limit_or_fallback_witness :
    sourceSemaphoreLimit (some 3) 7 = 3 ∧ sourceSemaphoreLimit none 7 = 7 :=
  source_semaphore_limit_or_fallback 3 7 (by decide)

/-- C10: with deltaDetection.enabled = false, pipeline.run returns the
post-filter, post-limit records unchanged, leaves last_stats at
hits = 0, misses = N, total = N for N the number of surviving records,
and never consults or modifies the fingerprint store. -/
theorem pipeline_dedup_disabled_reports_all_misses (rx : Json → Json → Bool)
    (filters : FiltersConfig) (dd : DeltaDetectionConfig) (defaultTtlSeconds : Int)
    (sourceName : String) (clock : Nat → Int) (records : List Json) (store : MemStore)
    (hdd : dd.enabled = false) :
    pipelineRun rx filters dd defaultTtlSeconds sourceName clock records store =
      ⟨applyLimits (applyFilters rx records filters) filters,
        ⟨0, (applyLimits (applyFilters rx records filters) filters).length,
          (applyLimits (applyFilters rx records filters) filters).length⟩,
        store, 0⟩ := by
  simp [pipelineRun, applyDeltaDetection, hdd]

/-- Witness for C10 on a concrete two-record batch with dedup disabled. -/
theorem pipeline_dedup_disabled_reports_all_misses_witness :
    pipelineRun (fun _ _ => false) ⟨[], [], ⟨none⟩⟩ ⟨false, false, none, none⟩ 86400
        "svc" (fun _ => 0) [Json.num 1, Json.num 2] ⟨50000, []⟩ =
      ⟨[Json.num 1, Json.num 2], ⟨0, 2, 2⟩, ⟨50000, []⟩, 0⟩ := by
  have h := pipeline_dedup_disabled_reports_all_misses (fun _ _ => false)
    ⟨[], [], ⟨none⟩⟩ ⟨false, false, none, none⟩ 86400 "svc" (fun _ => 0)
    [Json.num 1, Json.num 2] ⟨50000, []⟩ rfl
  simpa [applyFilters, applyLimits] using h

/-- The loop predicate of _apply_filters agrees pointwise with the
declarative drop/keep characterization. -/
theorem filterPred_eq_decide (rx : Json → Json → Bool) (f : FiltersConfig) (r : Json) :
    (!matchesDrop rx r f && (f.keep.isEmpty || matchesKeep rx r f)) =
      (decide (¬ ∃ rule ∈ f.drop, ∃ p ∈ rule.anyOf,
          pyMatches rx p.matchType (lookup_path r p.field) p.value = true) &&
        (f.keep.isEmpty ||
          decide (∃ rule ∈ f.keep, ∀ p ∈ rule.allOf,
            pyMatches rx p.matchType (lookup_path r p.field) p.value = true))) := by
  rw [Bool.eq_iff_iff]
  simp [matchesDrop, matchesKeep, List.any_eq_true, List.all_eq_true]

/-- C7: the filter stage retains exactly the records matching no drop rule
(a drop rule matches iff any of its predicates matches) and, when keep
rules exist, matching some keep rule in all of its predicates; the limit
stage stably truncates the survivors to the first maxRecordsPerScrape
records when that limit is positive, and is the identity otherwise.
Predicate fields are record-scoped (a root-scoped field would raise
ShapeMismatch in lookup_path rather than filter). -/
theorem filter_and_limit_stage_semantics (rx : Json → Json → Bool) (records : List Json)
    (filters : FiltersConfig)
    (hrootDrop : ∀ rule ∈ filters.drop, ∀ p ∈ rule.anyOf, ¬ p.field.startsWith "$root.")
    (hrootKeep : ∀ rule ∈ filters.keep, ∀ p ∈ rule.allOf, ¬ p.field.startsWith "$root.") :
    applyFilters rx records filters =
      records.filter (fun r =>
        decide (¬ ∃ rule ∈ filters.drop, ∃ p ∈ rule.anyOf,
            pyMatches rx p.matchType (lookup_path r p.field) p.value = true) &&
          (filters.keep.isEmpty ||
            decide (∃ rule ∈ filters.keep, ∀ p ∈ rule.allOf,
              pyMatches rx p.matchType (lookup_path r p.field) p.value = true))) ∧
    (∀ l : Int, filters.limits.maxRecordsPerScrape = some l → 0 < l →
      applyLimits (applyFilters rx records filters) filters =
        (applyFilters rx records filters).take l.toNat) ∧
    (filters.limits.maxRecordsPerScrape = none →
      applyLimits (applyFilters rx records filters) filters =
        applyFilters rx records filters) := by
  refine ⟨?_, ?_, ?_⟩
  · by_cases hempty : filters.drop.isEmpty && filters.keep.isEmpty
    · have hd : filters.drop = [] := by
        have := (Bool.and_eq_true _ _).mp hempty
        exact List.isEmpty_iff.mp this.1
      have hk : filters.keep = [] := by
        have := (Bool.and_eq_true _ _).mp hempty
        exact List.isEmpty_iff.mp this.2
      simp [applyFilters, hempty, hd, hk]
    · rw [applyFilters, if_neg (by simpa using hempty)]
      exact List.filter_congr (fun r _ => filterPred_eq_decide rx filters r)
  · intro l hl hpos
    simp only [applyLimits, hl]
    rw [if_neg (by omega)]
  · intro hl
    simp only [applyLimits, hl]

/-- Witness for C7 at a concrete batch and filter configuration. -/
theorem filter_and_limit_stage_semantics_witness :
    applyFilters (fun _ _ => false)
        [Json.obj [("t", Json.str "x")], Json.obj [("t", Json.str "y")]]
        ⟨[⟨[⟨"t", .equals, Json.str "x"⟩]⟩], [], ⟨some 1⟩⟩ =
      List.filter (fun r =>
        decide (¬ ∃ rule ∈ [(⟨[⟨"t", .equals, Json.str "x"⟩]⟩ : DropRule)],
            ∃ p ∈ rule.anyOf,
            pyMatches (fun _ _ => false) p.matchType (lookup_path r p.field) p.value = true) &&
          ((([] : List KeepRule)).isEmpty ||
            decide (∃ rule ∈ ([] : List KeepRule), ∀ p ∈ rule.allOf,
              pyMatches (fun _ _ => false) p.matchType (lookup_path r p.field) p.value = true)))
        [Json.obj [("t", Json.str "x")], Json.obj [("t", Json.str "y")]] ∧
    applyLimits (applyFilters (fun _ _ => false)
        [Json.obj [("t", Json.str "x")], Json.obj [("t", Json.str "y")]]
        ⟨[⟨[⟨"t", .equals, Json.str "x"⟩]⟩], [], ⟨some 1⟩⟩)
        ⟨[⟨[⟨"t", .equals, Json.str "x"⟩]⟩], [], ⟨some 1⟩⟩ =
      (applyFilters (fun _ _ => false)
        [Json.obj [("t", Json.str "x")], Json.obj [("t", Json.str "y")]]
        ⟨[⟨[⟨"t", .equals, Json.str "x"⟩]⟩], [], ⟨some 1⟩⟩).take 1 := by
  have h := filter_and_limit_stage_semantics (fun _ _ => false)
    [Json.obj [("t", Json.str "x")], Json.obj [("t", Json.str "y")]]
    ⟨[⟨[⟨"t", .equals, Json.str "x"⟩]⟩], [], ⟨some 1⟩⟩
    (by intro rule hr p hp; fin_cases hr <;> fin_cases hp <;> decide)
    (by intro rule hr p hp; cases hr)
  exact ⟨h.1, h.2.1 1 rfl (by decide)⟩

section AssocHelpers

variable {β : Type}

theorem lookupEntry_eq_none_iff (es : List (String × β)) (h : String) :
    lookupEntry es h = none ↔ h ∉ es.map Prod.fst := by
  induction es with
  | nil => simp [lookupEntry]
  | cons e rest ih =>
    by_cases he : e.1 = h
    · simp [lookupEntry, he]
    · simp only [lookupEntry, if_neg he, List.map_cons, List.mem_cons, ih]
      constructor
      · rintro hr (h1 | h2)
        · exact he h1.symm
        · exact hr h2
      · intro hn h2
        exact hn (Or.inr h2)

theorem lookupEntry_mem {es : List (String × β)} {h : String} {v : β}
    (hl : lookupEntry es h = some v) : (h, v) ∈ es := by
  induction es with
  | nil => simp [lookupEntry] at hl
  | cons e rest ih =>
    by_cases he : e.1 = h
    · rw [lookupEntry, if_pos he] at hl
      have hv : e.2 = v := by injection hl
      have : e = (h, v) := by
        cases e
        simp_all
      rw [← this]
      exact List.mem_cons_self _ _
    · rw [lookupEntry, if_neg he] at hl
      exact List.mem_cons_of_mem _ (ih hl)

theorem upsertWith_absent (f : β → β) (v0 : β) (es : List (String × β)) (h : String)
    (habs : h ∉ es.map Prod.fst) :
    upsertWith f v0 es h = es ++ [(h, v0)] := by
  induction es with
  | nil => rfl
  | cons e rest ih =>
    simp only [List.map_cons, List.mem_cons] at habs
    push_neg at habs
    rw [upsertWith, if_neg (fun hc => habs.1 hc.symm), ih habs.2]
    rfl

theorem upsertWith_keys_of_mem (f : β → β) (v0 : β) (es : List (String × β)) (h : String)
    (hpres : h ∈ es.map Prod.fst) :
    (upsertWith f v0 es h).map Prod.fst = es.map Prod.fst := by
  induction es with
  | nil => simp at hpres
  | cons e rest ih =>
    by_cases he : e.1 = h
    · rw [upsertWith, if_pos he]
      simp [he]
    · simp only [List.map_cons, List.mem_cons] at hpres
      rcases hpres with h1 | h2
      · exact absurd h1.symm he
      · rw [upsertWith, if_neg he]
        simp [ih h2]

theorem lookupEntry_upsertWith_self (f : β → β) (v0 : β) (es : List (String × β))
    (h : String) :
    lookupEntry (upsertWith f v0 es h) h = some ((lookupEntry es h).elim v0 f) := by
  induction es with
  | nil => simp [upsertWith, lookupEntry]
  | cons e rest ih =>
    by_cases he : e.1 = h
    · rw [upsertWith, if_pos he, lookupEntry, if_pos rfl, lookupEntry, if_pos he]
      rfl
    · rw [upsertWith, if_neg he, lookupEntry, if_neg he, lookupEntry, if_neg he, ih]

theorem upsertWith_length (f : β → β) (v0 : β) (es : List (String × β)) (h : String) :
    (upsertWith f v0 es h).length =
      if h ∈ es.map Prod.fst then es.length else es.length + 1 := by
  induction es with
  | nil => simp [upsertWith]
  | cons e rest ih =>
    by_cases he : e.1 = h
    · rw [upsertWith, if_pos he]
      simp [he]
    · rw [upsertWith, if_neg he]
      simp only [List.length_cons, List.map_cons, List.mem_cons, ih]
      have hne : ¬(h = e.1) := fun hc => he hc.symm
      by_cases hm : h ∈ rest.map Prod.fst
      · simp [hm, hne]
      · simp [hm, hne]

theorem upsertWith_keys_nodup (f : β → β) (v0 : β) (es : List (String × β)) (h : String)
    (hnd : (es.map Prod.fst).Nodup) :
    ((upsertWith f v0 es h).map Prod.fst).Nodup := by
  by_cases hpres : h ∈ es.map Prod.fst
  · rw [upsertWith_keys_of_mem _ _ _ _ hpres]
    exact hnd
  · rw [upsertWith_absent _ _ _ _ hpres, List.map_append]
    simp only [List.map_cons, List.map_nil]
    refine List.Nodup.append hnd (List.nodup_singleton _) ?_
    intro a ha hb
    simp only [List.mem_singleton] at hb
    subst hb
    exact hpres ha

theorem lookupEntry_filter_key (q : String → Bool) (es : List (String × β)) (h : String) :
    lookupEntry (es.filter (fun e => q e.1)) h =
      if q h then lookupEntry es h else none := by
  induction es with
  | nil => simp [lookupEntry]
  | cons e rest ih =>
    by_cases hq : q e.1
    · by_cases he : e.1 = h
      · subst he
        simp [List.filter_cons, hq, lookupEntry]
      · simp [List.filter_cons, hq, lookupEntry, he, ih]
    · by_cases he : e.1 = h
      · subst he
        simp [List.filter_cons, hq, lookupEntry, ih]
      · simp [List.filter_cons, hq, lookupEntry, he, ih]

theorem key_eq_entry_eq {es : List (String × β)} (hnd : (es.map Prod.fst).Nodup)
    {e1 e2 : String × β} (h1 : e1 ∈ es) (h2 : e2 ∈ es) (hk : e1.1 = e2.1) : e1 = e2 := by
  induction es with
  | nil => cases h1
  | cons e rest ih =>
    rw [List.map_cons, List.nodup_cons] at hnd
    rcases List.mem_cons.mp h1 with rfl | h1r
    · rcases List.mem_cons.mp h2 with rfl | h2r
      · rfl
      · exact absurd (hk ▸ List.mem_map_of_mem Prod.fst h2r) hnd.1
    · rcases List.mem_cons.mp h2 with rfl | h2r
      · exact absurd (hk ▸ List.mem_map_of_mem Prod.fst h1r) hnd.1
      · exact ih hnd.2 h1r h2r

end AssocHelpers

section EvictHelpers

variable {β : Type} (tm : β → Int)

theorem lookupEntry_append_right (l1 l2 : List (String × β)) (h : String)
    (habs : h ∉ l1.map Prod.fst) :
    lookupEntry (l1 ++ l2) h = lookupEntry l2 h := by
  induction l1 with
  | nil => rfl
  | cons e rest ih =>
    simp only [List.map_cons, List.mem_cons] at habs
    push_neg at habs
    rw [List.cons_append, lookupEntry, if_neg (fun hc => habs.1 hc.symm)]
    exact ih habs.2

theorem lookupEntry_filter_notin (ks : List String) (es : List (String × β)) (h : String) :
    lookupEntry (es.filter (fun e => decide (e.1 ∉ ks))) h =
      if h ∈ ks then none else lookupEntry es h := by
  have hkey := lookupEntry_filter_key (fun s => decide (s ∉ ks)) es h
  by_cases hm : h ∈ ks
  · simpa [hm] using hkey
  · simpa [hm] using hkey

theorem mergeSortTm_pairwise (entries : List (String × β)) :
    (entries.mergeSort (fun a b => decide (tm a.2 ≤ tm b.2))).Pairwise
      (fun a b => tm a.2 ≤ tm b.2) := by
  have h := @List.sorted_mergeSort _ (fun a b : String × β => decide (tm a.2 ≤ tm b.2))
    (fun a b c h1 h2 => by
      simp only [decide_eq_true_eq] at h1 h2 ⊢
      omega)
    (fun a b => by
      simp only [Bool.or_eq_true, decide_eq_true_eq]
      omega) entries
  exact h.imp (fun hab => by simpa using hab)

theorem evictSmallest_def (entries : List (String × β)) (k : Nat) :
    evictSmallest tm entries k =
      entries.filter (fun e => decide (e.1 ∉
        ((entries.mergeSort (fun a b => decide (tm a.2 ≤ tm b.2))).take k).map Prod.fst)) :=
  rfl

theorem evictSmallest_length (entries : List (String × β)) (k : Nat)
    (hnd : (entries.map Prod.fst).Nodup) (hk : k ≤ entries.length) :
    (evictSmallest tm entries k).length = entries.length - k := by
  classical
  rw [evictSmallest_def]
  set sortedItems := entries.mergeSort (fun a b => decide (tm a.2 ≤ tm b.2)) with hsorted
  set ks := (sortedItems.take k).map Prod.fst with hks
  have hperm : List.Perm sortedItems entries := List.mergeSort_perm _ _
  have hkeysperm : List.Perm (sortedItems.map Prod.fst) (entries.map Prod.fst) := hperm.map _
  have hndSorted : (sortedItems.map Prod.fst).Nodup := hkeysperm.nodup_iff.mpr hnd
  have hkssub : List.Sublist ks (sortedItems.map Prod.fst) := (sortedItems.take_sublist k).map _
  have hndks : ks.Nodup := hndSorted.sublist hkssub
  have hkslen : ks.length = k := by
    rw [hks, List.length_map, List.length_take, Nat.min_eq_left]
    rw [hperm.length_eq]
    exact hk
  have hkssubset : ∀ s ∈ ks, s ∈ entries.map Prod.fst := by
    intro s hs
    exact hkeysperm.mem_iff.mp (hkssub.subset hs)
  have hsplit :=
    (List.filter_append_perm (fun e : String × β => decide (e.1 ∉ ks)) entries).length_eq
  rw [List.length_append] at hsplit
  have hremkeys : (entries.filter (fun e => !decide ((e : String × β).1 ∉ ks))).map Prod.fst =
      (entries.map Prod.fst).filter (fun s => !decide (s ∉ ks)) := by
    rw [List.filter_map]
    rfl
  have hremperm : List.Perm ((entries.map Prod.fst).filter (fun s => !decide (s ∉ ks))) ks := by
    rw [List.perm_ext_iff_of_nodup (hnd.filter _) hndks]
    intro a
    simp only [List.mem_filter, Bool.not_eq_true', decide_eq_false_iff_not, not_not]
    exact ⟨fun ha => ha.2, fun ha => ⟨hkssubset a ha, ha⟩⟩
  have hremlen : (entries.filter (fun e => !decide ((e : String × β).1 ∉ ks))).length = k := by
    have := congrArg List.length hremkeys
    rw [List.length_map] at this
    rw [this, hremperm.length_eq, hkslen]
  omega

theorem evictSmallest_minimal (entries : List (String × β)) (k : Nat)
    (hnd : (entries.map Prod.fst).Nodup) :
    ∀ e ∈ entries, e ∉ evictSmallest tm entries k →
      ∀ kp ∈ evictSmallest tm entries k, tm e.2 ≤ tm kp.2 := by
  classical
  intro e he hnotkept kp hkp
  rw [evictSmallest_def] at hnotkept hkp
  set sortedItems := entries.mergeSort (fun a b => decide (tm a.2 ≤ tm b.2)) with hsorted
  set ks := (sortedItems.take k).map Prod.fst with hks
  have hperm : List.Perm sortedItems entries := List.mergeSort_perm _ _
  have hndSorted : (sortedItems.map Prod.fst).Nodup := (hperm.map _).nodup_iff.mpr hnd
  have heks : e.1 ∈ ks := by
    by_contra hc
    exact hnotkept (List.mem_filter.mpr ⟨he, by simpa using hc⟩)
  obtain ⟨ev, hev, hevk⟩ := List.mem_map.mp heks
  have hevs : ev ∈ sortedItems := List.mem_of_mem_take hev
  have hes : e ∈ sortedItems := hperm.mem_iff.mpr he
  have hev_eq : ev = e := key_eq_entry_eq hndSorted hevs hes hevk
  subst hev_eq
  have hkpf := List.mem_filter.mp hkp
  have hkps : kp ∈ sortedItems := hperm.mem_iff.mpr hkpf.1
  have hkpnot : kp.1 ∉ ks := by simpa using hkpf.2
  have hkpdrop : kp ∈ sortedItems.drop k := by
    rcases List.mem_append.mp
        ((List.take_append_drop k sortedItems).symm ▸ hkps) with hkt | hkd
    · exact absurd (List.mem_map_of_mem Prod.fst hkt) hkpnot
    · exact hkd
  have hpw := mergeSortTm_pairwise tm entries
  rw [← hsorted, ← List.take_append_drop k sortedItems] at hpw
  exact (List.pairwise_append.mp hpw).2.2 ev hev kp hkpdrop

theorem evictSmallest_zero (entries : List (String × β)) :
    evictSmallest tm entries 0 = entries := by
  simp [evictSmallest]

theorem evictSmallest_keys_sublist (entries : List (String × β)) (k : Nat) :
    List.Sublist ((evictSmallest tm entries k).map Prod.fst) (entries.map Prod.fst) :=
  (List.filter_sublist _).map _

theorem evictSmallest_keeps_last (old : List (String × β)) (h : String) (v : β)
    (hnotin : h ∉ old.map Prod.fst) (hnd : (old.map Prod.fst).Nodup)
    (hle : ∀ e ∈ old, tm e.2 ≤ tm v) (hne : old ≠ []) :
    lookupEntry (evictSmallest tm (old ++ [(h, v)]) 1) h = some v := by
  classical
  rw [evictSmallest_def]
  set entries := old ++ [(h, v)] with hentries
  set sortedItems := entries.mergeSort (fun a b => decide (tm a.2 ≤ tm b.2)) with hsorted
  have hperm : List.Perm sortedItems entries := List.mergeSort_perm _ _
  have hndEntries : (entries.map Prod.fst).Nodup := by
    rw [hentries, List.map_append]
    refine List.Nodup.append hnd (List.nodup_singleton _) ?_
    intro a ha hb
    simp only [List.map_cons, List.map_nil, List.mem_singleton] at hb
    subst hb
    exact hnotin ha
  have hndSorted : (sortedItems.map Prod.fst).Nodup := (hperm.map _).nodup_iff.mpr hndEntries
  have hmemhv : (h, v) ∈ entries := by
    rw [hentries]
    exact List.mem_append_right _ (List.mem_singleton_self _)
  cases hso : sortedItems with
  | nil =>
    exfalso
    have := hperm.length_eq
    rw [hso] at this
    simp [hentries] at this
  | cons s0 srest =>
    rw [show List.map Prod.fst (List.take 1 (s0 :: srest)) = [s0.1] by simp]
    have hs0ne : s0.1 ≠ h := by
      intro hs0h
      have hs0mem : s0 ∈ entries := hperm.subset (hso ▸ List.mem_cons_self _ _)
      have hs0eq : s0 = (h, v) := key_eq_entry_eq hndEntries hs0mem hmemhv hs0h
      cases old with
      | nil => exact hne rfl
      | cons y old2 =>
        have hysub : [y, (h, v)].Sublist entries := by
          rw [hentries]
          exact List.Sublist.append
            (List.cons_sublist_cons.mpr (List.nil_sublist _)) (List.Sublist.refl _)
        have hypw : [y, (h, v)].Pairwise
            (fun a b : String × β => decide (tm a.2 ≤ tm b.2) = true) := by
          constructor
          · intro b hb
            simp only [List.mem_singleton] at hb
            subst hb
            simp only [decide_eq_true_eq]
            exact hle y (List.mem_cons_self _ _)
          · exact List.pairwise_singleton _ _
        have hysort : [y, (h, v)].Sublist sortedItems :=
          List.sublist_mergeSort
            (fun a b c h1 h2 => by
              simp only [decide_eq_true_eq] at h1 h2 ⊢
              omega)
            (fun a b => by
              simp only [Bool.or_eq_true, decide_eq_true_eq]
              omega)
            hypw hysub
        rw [hso, hs0eq] at hysort
        rcases List.sublist_cons_iff.mp hysort with htail | ⟨r, hyr, _⟩
        · have hhv : (h, v) ∈ srest :=
            htail.subset (List.mem_cons_of_mem _ (List.mem_singleton_self _))
          have hkey : s0.1 ∈ srest.map Prod.fst := by
            rw [hs0eq]
            exact List.mem_map_of_mem Prod.fst hhv
          rw [hso, List.map_cons, List.nodup_cons] at hndSorted
          exact hndSorted.1 hkey
        · have hyhv : y = (h, v) := by
            injection hyr with hy _
          have : h ∈ (y :: old2).map Prod.fst := by
            rw [hyhv]
            exact List.mem_cons_self _ _
          exact hnotin this
    have hnotks : h ∉ [s0.1] := by
      intro hc
      simp only [List.mem_singleton] at hc
      exact hs0ne hc.symm
    rw [lookupEntry_filter_notin [s0.1] entries h, if_neg hnotks, hentries,
      lookupEntry_append_right _ _ _ hnotin, lookupEntry, if_pos rfl]

end EvictHelpers

section StoreInvariants

theorem upsert_keys_nodup {β : Type} (es : List (String × β)) (h : String) (v : β)
    (hnd : (es.map Prod.fst).Nodup) : ((upsert es h v).map Prod.fst).Nodup :=
  upsertWith_keys_nodup _ _ _ _ hnd

theorem upsert_length {β : Type} (es : List (String × β)) (h : String) (v : β) :
    (upsert es h v).length = if h ∈ es.map Prod.fst then es.length else es.length + 1 :=
  upsertWith_length _ _ _ _

theorem lookupEntry_upsert_self {β : Type} (es : List (String × β)) (h : String) (v : β) :
    lookupEntry (upsert es h v) h = some v := by
  rw [upsert, lookupEntry_upsertWith_self]
  cases lookupEntry es h <;> rfl

theorem upsert_absent {β : Type} (es : List (String × β)) (h : String) (v : β)
    (habs : h ∉ es.map Prod.fst) : upsert es h v = es ++ [(h, v)] :=
  upsertWith_absent _ _ _ _ habs

theorem memTouch_eq (st : MemStore) (h : String) (now : Int) :
    memTouch st h now =
      if (upsert st.entries h now).length > st.maxEntries then
        ⟨st.maxEntries, evictSmallest id (upsert st.entries h now)
          (pySliceCount (upsert st.entries h now).length st.maxEntries)⟩
      else ⟨st.maxEntries, upsert st.entries h now⟩ :=
  rfl

theorem memTouch_maxEntries (st : MemStore) (h : String) (now : Int) :
    (memTouch st h now).maxEntries = st.maxEntries := by
  rw [memTouch_eq]
  split <;> rfl

theorem memTouch_keys_nodup (st : MemStore) (h : String) (now : Int)
    (hnd : (st.entries.map Prod.fst).Nodup) :
    ((memTouch st h now).entries.map Prod.fst).Nodup := by
  rw [memTouch_eq]
  split
  · exact (upsert_keys_nodup st.entries h now hnd).sublist
      (evictSmallest_keys_sublist id _ _)
  · exact upsert_keys_nodup st.entries h now hnd

theorem memTouch_bound (st : MemStore) (h : String) (now : Int)
    (hnd : (st.entries.map Prod.fst).Nodup) (hmax : 1 ≤ st.maxEntries) :
    (memTouch st h now).entries.length ≤ st.maxEntries := by
  rw [memTouch_eq]
  by_cases hgt : (upsert st.entries h now).length > st.maxEntries
  · rw [if_pos hgt]
    have hnd2 := upsert_keys_nodup st.entries h now hnd
    have hmaxne : st.maxEntries ≠ 0 := by omega
    show (evictSmallest id (upsert st.entries h now)
      (pySliceCount (upsert st.entries h now).length st.maxEntries)).length ≤ st.maxEntries
    rw [show pySliceCount (upsert st.entries h now).length st.maxEntries =
        (upsert st.entries h now).length - st.maxEntries from by
      rw [pySliceCount, if_neg hmaxne]]
    rw [evictSmallest_length id _ _ hnd2 (by omega)]
    omega
  · rw [if_neg hgt]
    show (upsert st.entries h now).length ≤ st.maxEntries
    omega

theorem memTouch_lookup_self (st : MemStore) (h : String) (now : Int)
    (hnd : (st.entries.map Prod.fst).Nodup) (hlen : st.entries.length ≤ st.maxEntries)
    (hmax : 1 ≤ st.maxEntries) (hpast : ∀ e ∈ st.entries, e.2 ≤ now) :
    lookupEntry (memTouch st h now).entries h = some now := by
  rw [memTouch_eq]
  by_cases hpres : h ∈ st.entries.map Prod.fst
  · have hlen2 : (upsert st.entries h now).length = st.entries.length := by
      rw [upsert_length, if_pos hpres]
    rw [if_neg (by omega)]
    exact lookupEntry_upsert_self _ _ _
  · have hupabs : upsert st.entries h now = st.entries ++ [(h, now)] :=
      upsert_absent _ _ _ hpres
    have hlen2 : (upsert st.entries h now).length = st.entries.length + 1 := by
      rw [upsert_length, if_neg hpres]
    by_cases hgt : (upsert st.entries h now).length > st.maxEntries
    · rw [if_pos hgt]
      have hexact : st.entries.length = st.maxEntries := by omega
      show lookupEntry (evictSmallest id (upsert st.entries h now)
        (pySliceCount (upsert st.entries h now).length st.maxEntries)) h = some now
      rw [show pySliceCount (upsert st.entries h now).length st.maxEntries = 1 from by
        rw [pySliceCount, if_neg (by omega)]
        omega]
      rw [hupabs]
      refine evictSmallest_keeps_last id st.entries h now hpres hnd ?_ ?_
      · intro e he
        exact hpast e he
      · intro hnil
        rw [hnil] at hexact
        simp only [List.length_nil] at hexact
        omega
    · rw [if_neg hgt]
      exact lookupEntry_upsert_self _ _ _

theorem sqlUpsert_keys_nodup (es : List (String × SqlMeta)) (h : String) (now ttlSeconds : Int)
    (hnd : (es.map Prod.fst).Nodup) : ((sqlUpsert es h now ttlSeconds).map Prod.fst).Nodup :=
  upsertWith_keys_nodup _ _ _ _ hnd

theorem sqlUpsert_length (es : List (String × SqlMeta)) (h : String) (now ttlSeconds : Int) :
    (sqlUpsert es h now ttlSeconds).length =
      if h ∈ es.map Prod.fst then es.length else es.length + 1 :=
  upsertWith_length _ _ _ _

theorem lookupEntry_sqlUpsert_self (es : List (String × SqlMeta)) (h : String)
    (now ttlSeconds : Int) :
    ∃ firstSeen, lookupEntry (sqlUpsert es h now ttlSeconds) h =
      some ⟨firstSeen, now, ttlSeconds⟩ := by
  rw [sqlUpsert, lookupEntry_upsertWith_self]
  cases lookupEntry es h with
  | none => exact ⟨now, rfl⟩
  | some m => exact ⟨m.firstSeen, rfl⟩

theorem sqlUpsert_absent (es : List (String × SqlMeta)) (h : String) (now ttlSeconds : Int)
    (habs : h ∉ es.map Prod.fst) :
    sqlUpsert es h now ttlSeconds = es ++ [(h, ⟨now, now, ttlSeconds⟩)] :=
  upsertWith_absent _ _ _ _ habs

theorem sqlTouch_eq (st : SqlStore) (h : String) (ttlSeconds now : Int) :
    sqlTouch st h ttlSeconds now =
      if (sqlUpsert st.entries h now ttlSeconds).length > st.maxEntries then
        ⟨st.maxEntries, evictSmallest (fun m => m.lastSeen) (sqlUpsert st.entries h now ttlSeconds)
          ((sqlUpsert st.entries h now ttlSeconds).length - st.maxEntries)⟩
      else ⟨st.maxEntries, sqlUpsert st.entries h now ttlSeconds⟩ :=
  rfl

theorem sqlTouch_maxEntries (st : SqlStore) (h : String) (ttlSeconds now : Int) :
    (sqlTouch st h ttlSeconds now).maxEntries = st.maxEntries := by
  rw [sqlTouch_eq]
  split <;> rfl

theorem sqlTouch_keys_nodup (st : SqlStore) (h : String) (ttlSeconds now : Int)
    (hnd : (st.entries.map Prod.fst).Nodup) :
    ((sqlTouch st h ttlSeconds now).entries.map Prod.fst).Nodup := by
  rw [sqlTouch_eq]
  split
  · exact (sqlUpsert_keys_nodup st.entries h now ttlSeconds hnd).sublist
      (evictSmallest_keys_sublist _ _ _)
  · exact sqlUpsert_keys_nodup st.entries h now ttlSeconds hnd

theorem sqlTouch_bound (st : SqlStore) (h : String) (ttlSeconds now : Int)
    (hnd : (st.entries.map Prod.fst).Nodup) (hmax : 1 ≤ st.maxEntries) :
    (sqlTouch st h ttlSeconds now).entries.length ≤ st.maxEntries := by
  rw [sqlTouch_eq]
  by_cases hgt : (sqlUpsert st.entries h now ttlSeconds).length > st.maxEntries
  · rw [if_pos hgt]
    have hnd2 := sqlUpsert_keys_nodup st.entries h now ttlSeconds hnd
    show (evictSmallest (fun m => m.lastSeen) (sqlUpsert st.entries h now ttlSeconds)
      ((sqlUpsert st.entries h now ttlSeconds).length - st.maxEntries)).length ≤ st.maxEntries
    rw [evictSmallest_length _ _ _ hnd2 (by omega)]
    omega
  · rw [if_neg hgt]
    show (sqlUpsert st.entries h now ttlSeconds).length ≤ st.maxEntries
    omega

theorem sqlTouch_lookup_self (st : SqlStore) (h : String) (ttlSeconds now : Int)
    (hnd : (st.entries.map Prod.fst).Nodup) (hlen : st.entries.length ≤ st.maxEntries)
    (hmax : 1 ≤ st.maxEntries) (hpast : ∀ e ∈ st.entries, e.2.lastSeen ≤ now) :
    ∃ firstSeen, lookupEntry (sqlTouch st h ttlSeconds now).entries h =
      some ⟨firstSeen, now, ttlSeconds⟩ := by
  rw [sqlTouch_eq]
  by_cases hpres : h ∈ st.entries.map Prod.fst
  · have hlen2 : (sqlUpsert st.entries h now ttlSeconds).length = st.entries.length := by
      rw [sqlUpsert_length, if_pos hpres]
    rw [if_neg (by omega)]
    exact lookupEntry_sqlUpsert_self _ _ _ _
  · have hupabs := sqlUpsert_absent st.entries h now ttlSeconds hpres
    have hlen2 : (sqlUpsert st.entries h now ttlSeconds).length = st.entries.length + 1 := by
      rw [sqlUpsert_length, if_neg hpres]
    by_cases hgt : (sqlUpsert st.entries h now ttlSeconds).length > st.maxEntries
    · rw [if_pos hgt]
      have hexact : st.entries.length = st.maxEntries := by omega
      show ∃ firstSeen,
        lookupEntry (evictSmallest (fun m => m.lastSeen) (sqlUpsert st.entries h now ttlSeconds)
          ((sqlUpsert st.entries h now ttlSeconds).length - st.maxEntries)) h =
          some ⟨firstSeen, now, ttlSeconds⟩
      rw [show (sqlUpsert st.entries h now ttlSeconds).length - st.maxEntries = 1 from by omega]
      rw [hupabs]
      refine ⟨now, evictSmallest_keeps_last (fun m => m.lastSeen) st.entries h
        ⟨now, now, ttlSeconds⟩ hpres hnd ?_ ?_⟩
      · intro e he
        exact hpast e he
      · intro hnil
        rw [hnil] at hexact
        simp only [List.length_nil] at hexact
        omega
    · rw [if_neg hgt]
      exact lookupEntry_sqlUpsert_self _ _ _ _

theorem memTouchSeq_bound (maxEntries : Nat) (hmax : 1 ≤ maxEntries)
    (ops : List (String × Int)) :
    (memTouchSeq maxEntries ops).entries.length ≤ maxEntries := by
  suffices haux : ∀ (st : MemStore), st.maxEntries = maxEntries →
      (st.entries.map Prod.fst).Nodup → st.entries.length ≤ maxEntries →
      (ops.foldl (fun st op => memTouch st op.1 op.2) st).entries.length ≤ maxEntries by
    exact haux ⟨maxEntries, []⟩ rfl (by simp) (by simp)
  induction ops with
  | nil =>
    intro st _ _ h3
    exact h3
  | cons op rest ih =>
    intro st h1 h2 h3
    simp only [List.foldl_cons]
    refine ih (memTouch st op.1 op.2) ?_ ?_ ?_
    · rw [memTouch_maxEntries, h1]
    · exact memTouch_keys_nodup st op.1 op.2 h2
    · rw [← h1]
      exact memTouch_bound st op.1 op.2 h2 (h1 ▸ hmax)

theorem sqlTouchSeq_bound (maxEntries : Nat) (hmax : 1 ≤ maxEntries)
    (ops : List (String × Int × Int)) :
    (sqlTouchSeq maxEntries ops).entries.length ≤ maxEntries := by
  suffices haux : ∀ (st : SqlStore), st.maxEntries = maxEntries →
      (st.entries.map Prod.fst).Nodup → st.entries.length ≤ maxEntries →
      (ops.foldl (fun st op => sqlTouch st op.1 op.2.1 op.2.2) st).entries.length ≤
        maxEntries by
    exact haux ⟨maxEntries, []⟩ rfl (by simp) (by simp)
  induction ops with
  | nil =>
    intro st _ _ h3
    exact h3
  | cons op rest ih =>
    intro st h1 h2 h3
    simp only [List.foldl_cons]
    refine ih (sqlTouch st op.1 op.2.1 op.2.2) ?_ ?_ ?_
    · rw [sqlTouch_maxEntries, h1]
    · exact sqlTouch_keys_nodup st op.1 op.2.1 op.2.2 h2
    · rw [← h1]
      exact sqlTouch_bound st op.1 op.2.1 op.2.2 h2 (h1 ▸ hmax)

end StoreInvariants

/-- C4 counterexample: maxEntriesPerSource = 0 passes config validation,
and at that setting the sqlite store's capacity enforcement (count 1 >
0, overflow 1) deletes the row the touch just inserted, so contains is
false immediately after touch even though ttl = 5 > 0 — refuting the
claim's unconditional after-touch guarantee. -/
theorem sqlite_touch_at_zero_capacity_evicts_new_row :
    (sqlTouch (⟨0, []⟩ : SqlStore) "h" 5 4).entries = [] ∧
    (sqlContains (sqlTouch (⟨0, []⟩ : SqlStore) "h" 5 4) "h" 5 4).1 = false ∧
    (0 : Int) < 5 := by
  have htouch : (sqlTouch (⟨0, []⟩ : SqlStore) "h" 5 4).entries = [] := by
    rw [sqlTouch_eq]
    rw [show (⟨0, []⟩ : SqlStore).entries = [] from rfl]
    rw [show sqlUpsert ([] : List (String × SqlMeta)) "h" 4 5 = [("h", ⟨4, 4, 5⟩)] from rfl]
    rw [if_pos (by decide)]
    show evictSmallest (fun m : SqlMeta => m.lastSeen) [("h", (⟨4, 4, 5⟩ : SqlMeta))]
      ([("h", (⟨4, 4, 5⟩ : SqlMeta))].length - 0) = []
    rw [show ([("h", (⟨4, 4, 5⟩ : SqlMeta))].length - 0) = 1 from rfl]
    rw [evictSmallest_def, List.mergeSort_singleton]
    decide
  refine ⟨htouch, ?_, by decide⟩
  simp [sqlContains, htouch, lookupEntry]

/-- C4 amended: for both fingerprint store variants, contains(h, s, ttl)
is true iff an entry for the hash exists and now - lastSeen is at most
the effective TTL (the stored row TTL when non-zero for the sqlite
store, else the caller's ttl; the memory store stores no TTL, so the
caller's ttl applies); and provided the store holds its configured
invariants — distinct hashes, at most maxEntriesPerSource entries with
maxEntriesPerSource at least 1, and no stored timestamp in the future
of the touch — immediately after touch(h, s, ttl) contains is true when
ttl is positive, and once the clock has advanced by more than the TTL
it is false.  (With maxEntriesPerSource = 0 the sqlite variant evicts
the just-inserted row, so the after-touch guarantee needs the capacity
hypothesis.) -/
theorem fingerprint_contains_ttl_semantics :
    (∀ (st : MemStore) (h : String) (ttlSeconds now : Int),
      (memContains st h ttlSeconds now).1 = true ↔
        ∃ lastSeen, lookupEntry st.entries h = some lastSeen ∧
          now - lastSeen ≤ ttlSeconds) ∧
    (∀ (st : SqlStore) (h : String) (ttlSeconds now : Int),
      (sqlContains st h ttlSeconds now).1 = true ↔
        ∃ row, lookupEntry st.entries h = some row ∧
          now - row.lastSeen ≤ (if row.ttl ≠ 0 then row.ttl else ttlSeconds)) ∧
    (∀ (st : MemStore) (h : String) (ttlSeconds now : Int),
      (st.entries.map Prod.fst).Nodup → st.entries.length ≤ st.maxEntries →
      1 ≤ st.maxEntries → (∀ e ∈ st.entries, e.2 ≤ now) → 0 < ttlSeconds →
      (memContains (memTouch st h now) h ttlSeconds now).1 = true) ∧
    (∀ (st : MemStore) (h : String) (ttlSeconds now now2 : Int),
      (st.entries.map Prod.fst).Nodup → st.entries.length ≤ st.maxEntries →
      1 ≤ st.maxEntries → (∀ e ∈ st.entries, e.2 ≤ now) → ttlSeconds < now2 - now →
      (memContains (memTouch st h now) h ttlSeconds now2).1 = false) ∧
    (∀ (st : SqlStore) (h : String) (ttlSeconds now : Int),
      (st.entries.map Prod.fst).Nodup → st.entries.length ≤ st.maxEntries →
      1 ≤ st.maxEntries → (∀ e ∈ st.entries, e.2.lastSeen ≤ now) → 0 < ttlSeconds →
      (sqlContains (sqlTouch st h ttlSeconds now) h ttlSeconds now).1 = true) ∧
    (∀ (st : SqlStore) (h : String) (ttlSeconds now now2 : Int),
      (st.entries.map Prod.fst).Nodup → st.entries.length ≤ st.maxEntries →
      1 ≤ st.maxEntries → (∀ e ∈ st.entries, e.2.lastSeen ≤ now) → ttlSeconds < now2 - now →
      (sqlContains (sqlTouch st h ttlSeconds now) h ttlSeconds now2).1 = false) := by
  refine ⟨?_, ?_, ?_, ?_, ?_, ?_⟩
  · intro st h ttlSeconds now
    rcases hl : lookupEntry st.entries h with _ | ls
    · simp [memContains, hl]
    · by_cases hexp : now - ls > ttlSeconds
      · simp only [memContains, hl]
        rw [if_pos hexp]
        constructor
        · intro hc
          exact absurd hc Bool.false_ne_true
        · rintro ⟨ls2, hls2, hle⟩
          injection hls2 with h2
          subst h2
          exact absurd hle (by omega)
      · simp only [memContains, hl]
        rw [if_neg hexp]
        simp only [true_iff]
        exact ⟨ls, rfl, by omega⟩
  · intro st h ttlSeconds now
    rcases hl : lookupEntry st.entries h with _ | row
    · simp [sqlContains, hl]
    · by_cases hexp : now - row.lastSeen > (if row.ttl ≠ 0 then row.ttl else ttlSeconds)
      · simp only [sqlContains, hl]
        rw [if_pos hexp]
        constructor
        · intro hc
          exact absurd hc Bool.false_ne_true
        · rintro ⟨row2, hrow2, hle⟩
          injection hrow2 with h2
          subst h2
          exact absurd hle (by omega)
      · simp only [sqlContains, hl]
        rw [if_neg hexp]
        simp only [true_iff]
        exact ⟨row, rfl, by omega⟩
  · intro st h ttlSeconds now hnd hlen hmax hpast httl
    have hlook := memTouch_lookup_self st h now hnd hlen hmax hpast
    simp only [memContains, hlook]
    rw [if_neg (by omega)]
  · intro st h ttlSeconds now now2 hnd hlen hmax hpast hadv
    have hlook := memTouch_lookup_self st h now hnd hlen hmax hpast
    simp only [memContains, hlook]
    rw [if_pos (by omega)]
  · intro st h ttlSeconds now hnd hlen hmax hpast httl
    obtain ⟨firstSeen, hlook⟩ := sqlTouch_lookup_self st h ttlSeconds now hnd hlen hmax hpast
    simp only [sqlContains, hlook]
    rw [if_neg (by simp only [ne_eq]; split <;> omega)]
  · intro st h ttlSeconds now now2 hnd hlen hmax hpast hadv
    obtain ⟨firstSeen, hlook⟩ := sqlTouch_lookup_self st h ttlSeconds now hnd hlen hmax hpast
    simp only [sqlContains, hlook]
    rw [if_pos (by simp only [ne_eq]; split <;> omega)]

/-- Witness for C4 at a concrete store, hash and clock. -/
theorem fingerprint_contains_ttl_semantics_witness :
    ((memContains (⟨10, [("g", 3)]⟩ : MemStore) "g" 5 4).1 = true ↔
      ∃ lastSeen, lookupEntry ([("g", 3)] : List (String × Int)) "g" = some lastSeen ∧
        4 - lastSeen ≤ 5) ∧
    (memContains (memTouch (⟨10, [("g", 3)]⟩ : MemStore) "h" 4) "h" 5 4).1 = true ∧
    (memContains (memTouch (⟨10, [("g", 3)]⟩ : MemStore) "h" 4) "h" 5 10).1 = false ∧
    (sqlContains (sqlTouch (⟨10, []⟩ : SqlStore) "h" 5 4) "h" 5 4).1 = true ∧
    (sqlContains (sqlTouch (⟨10, []⟩ : SqlStore) "h" 5 4) "h" 5 10).1 = false := by
  refine ⟨fingerprint_contains_ttl_semantics.1 _ _ _ _, ?_, ?_, ?_, ?_⟩
  · exact fingerprint_contains_ttl_semantics.2.2.1 ⟨10, [("g", 3)]⟩ "h" 5 4
      (by decide) (by decide) (by decide) (by decide) (by decide)
  · exact fingerprint_contains_ttl_semantics.2.2.2.1 ⟨10, [("g", 3)]⟩ "h" 5 4 10
      (by decide) (by decide) (by decide) (by decide) (by decide)
  · exact fingerprint_contains_ttl_semantics.2.2.2.2.1 ⟨10, []⟩ "h" 5 4
      (by decide) (by decide) (by decide) (by decide) (by decide)
  · exact fingerprint_contains_ttl_semantics.2.2.2.2.2 ⟨10, []⟩ "h" 5 4 10
      (by decide) (by decide) (by decide) (by decide) (by decide)

/-- C5 counterexample: with maxEntriesPerSource = 0 the memory store's
eviction slice sorted_items[: -0] is empty, so a touch leaves one entry
in the bucket, exceeding the configured bound. -/
theorem memory_touch_capacity_violated_at_zero :
    (memTouch (⟨0, []⟩ : MemStore) "h" 5).entries.length = 1 ∧
      ¬ (memTouch (⟨0, []⟩ : MemStore) "h" 5).entries.length ≤ 0 := by
  decide

/-- C5 amended: provided maxEntriesPerSource is at least 1, after every
touch of any finite sequence (starting from an empty store) the number of
entries per source is at most maxEntriesPerSource, for both the memory
and the sqlite store; and the entries a touch evicts are exactly those
with the smallest lastSeen timestamps: every evicted entry's lastSeen is
at most every retained entry's lastSeen. -/
theorem fingerprint_capacity_bound_and_oldest_eviction :
    (∀ (maxEntries : Nat) (ops : List (String × Int)), 1 ≤ maxEntries →
      (memTouchSeq maxEntries ops).entries.length ≤ maxEntries) ∧
    (∀ (st : MemStore) (h : String) (now : Int), (st.entries.map Prod.fst).Nodup →
      ∀ e ∈ upsert st.entries h now, e ∉ (memTouch st h now).entries →
        ∀ kp ∈ (memTouch st h now).entries, e.2 ≤ kp.2) ∧
    (∀ (maxEntries : Nat) (ops : List (String × Int × Int)), 1 ≤ maxEntries →
      (sqlTouchSeq maxEntries ops).entries.length ≤ maxEntries) ∧
    (∀ (st : SqlStore) (h : String) (ttlSeconds now : Int),
      (st.entries.map Prod.fst).Nodup →
      ∀ e ∈ sqlUpsert st.entries h now ttlSeconds, e ∉ (sqlTouch st h ttlSeconds now).entries →
        ∀ kp ∈ (sqlTouch st h ttlSeconds now).entries, e.2.lastSeen ≤ kp.2.lastSeen) := by
  refine ⟨fun m ops hm => memTouchSeq_bound m hm ops, ?_,
    fun m ops hm => sqlTouchSeq_bound m hm ops, ?_⟩
  · intro st h now hnd e he hnotkept kp hkp
    rw [memTouch_eq] at hnotkept hkp
    by_cases hgt : (upsert st.entries h now).length > st.maxEntries
    · rw [if_pos hgt] at hnotkept hkp
      exact evictSmallest_minimal id _ _ (upsert_keys_nodup st.entries h now hnd)
        e he hnotkept kp hkp
    · rw [if_neg hgt] at hnotkept
      exact absurd he hnotkept
  · intro st h ttlSeconds now hnd e he hnotkept kp hkp
    rw [sqlTouch_eq] at hnotkept hkp
    by_cases hgt : (sqlUpsert st.entries h now ttlSeconds).length > st.maxEntries
    · rw [if_pos hgt] at hnotkept hkp
      exact evictSmallest_minimal _ _ _ (sqlUpsert_keys_nodup st.entries h now ttlSeconds hnd)
        e he hnotkept kp hkp
    · rw [if_neg hgt] at hnotkept
      exact absurd he hnotkept

/-- Witness for the amended C5 on concrete touch sequences that overflow a
capacity-1 store. -/
theorem fingerprint_capacity_bound_and_oldest_eviction_witness :
    (memTouchSeq 1 [("a", 1), ("b", 2)]).entries.length ≤ 1 ∧
    (∀ e ∈ upsert ([("a", 1)] : List (String × Int)) "b" 2,
      e ∉ (memTouch (⟨1, [("a", 1)]⟩ : MemStore) "b" 2).entries →
      ∀ kp ∈ (memTouch (⟨1, [("a", 1)]⟩ : MemStore) "b" 2).entries, e.2 ≤ kp.2) ∧
    (sqlTouchSeq 1 [("a", 7, 1), ("b", 7, 2)]).entries.length ≤ 1 :=
  ⟨fingerprint_capacity_bound_and_oldest_eviction.1 1 [("a", 1), ("b", 2)] (by decide),
   fingerprint_capacity_bound_and_oldest_eviction.2.1 ⟨1, [("a", 1)]⟩ "b" 2 (by decide),
   fingerprint_capacity_bound_and_oldest_eviction.2.2.1 1 [("a", 7, 1), ("b", 7, 2)]
     (by decide)⟩

theorem memTouch_empty (st : MemStore) (h : String) (now : Int) (hst : st.entries = []) :
    (memTouch st h now).entries = [(h, now)] := by
  rw [memTouch_eq]
  have h1 : upsert st.entries h now = [(h, now)] := by
    rw [hst]
    rfl
  rw [h1]
  by_cases hm : ([(h, now)] : List (String × Int)).length > st.maxEntries
  · rw [if_pos hm]
    have hm0 : st.maxEntries = 0 := by
      simp only [List.length_cons, List.length_nil] at hm
      omega
    show evictSmallest id [(h, now)]
      (pySliceCount ([(h, now)] : List (String × Int)).length st.maxEntries) = [(h, now)]
    rw [hm0]
    rw [show pySliceCount ([(h, now)] : List (String × Int)).length 0 = 0 from rfl]
    exact evictSmallest_zero id _
  · rw [if_neg hm]

/-- C6: with delta detection enabled and a positive ttl, the dedup stage
over a batch of three fingerprint-equal records starting from a fresh
store keeps exactly the first record: the first consult misses and
touches the store, the second and third hit and are dropped, whichever
of the equal-fingerprint records comes first.  The clock hypotheses say
the batch is processed within the ttl. -/
theorem dedup_keeps_exactly_first_of_equal_fingerprints
    (sourceName : String) (dd : DeltaDetectionConfig) (defaultTtlSeconds ttl : Int)
    (clock : Nat → Int) (a b c : Json) (store : MemStore)
    (hen : dd.enabled = true) (httl : dd.ttlSeconds = some ttl) (hpos : 0 < ttl)
    (hstore : store.entries = [])
    (hfb : compute_hash (fingerprint_payload b
        (if dd.modeIsKeys then dd.fingerprintKeys else none) sourceName) =
      compute_hash (fingerprint_payload a
        (if dd.modeIsKeys then dd.fingerprintKeys else none) sourceName))
    (hfc : compute_hash (fingerprint_payload c
        (if dd.modeIsKeys then dd.fingerprintKeys else none) sourceName) =
      compute_hash (fingerprint_payload a
        (if dd.modeIsKeys then dd.fingerprintKeys else none) sourceName))
    (hc1 : clock 1 - clock 0 ≤ ttl) (hc2 : clock 2 - clock 0 ≤ ttl) :
    (applyDeltaDetection dd defaultTtlSeconds sourceName clock [a, b, c] store).kept =
      [a] ∧
    (applyDeltaDetection dd defaultTtlSeconds sourceName clock [a, b, c] store).stats =
      ⟨2, 1, 3⟩ := by
  set K := if dd.modeIsKeys then dd.fingerprintKeys else none with hK
  set ha := compute_hash (fingerprint_payload a K sourceName) with hha
  have htouched := memTouch_empty store ha (clock 0) hstore
  have e0 : memContains store ha ttl (clock 0) = (false, store) := by
    simp [memContains, hstore, lookupEntry]
  have hlk : lookupEntry [(ha, clock 0)] ha = some (clock 0) := by
    simp [lookupEntry]
  have e1 : memContains (memTouch store ha (clock 0)) ha ttl (clock 1) =
      (true, memTouch store ha (clock 0)) := by
    simp only [memContains, htouched, hlk]
    rw [if_neg (show ¬(clock 1 - clock 0 > ttl) from by omega)]
  have e2 : memContains (memTouch store ha (clock 0)) ha ttl (clock 2) =
      (true, memTouch store ha (clock 0)) := by
    simp only [memContains, htouched, hlk]
    rw [if_neg (show ¬(clock 2 - clock 0 > ttl) from by omega)]
  have hloop : dedupLoop sourceName K ttl clock [a, b, c] store 0 0 0 [] 0 =
      ⟨[a], ⟨2, 1, 3⟩, memTouch store ha (clock 0), 3⟩ := by
    simp [dedupLoop, ← hha, hfb, hfc, e0, e1, e2]
  have hres : applyDeltaDetection dd defaultTtlSeconds sourceName clock [a, b, c] store =
      ⟨[a], ⟨2, 1, 3⟩, memTouch store ha (clock 0), 3⟩ := by
    rw [applyDeltaDetection]
    rw [hen]
    simp only [Bool.not_true, Bool.false_eq_true, if_false, httl]
    rw [if_pos (by omega : ttl ≠ 0)]
    exact hloop
  rw [hres]
  exact ⟨rfl, rfl⟩

/-- Witness for C6 at a concrete batch of three identical records. -/
theorem dedup_keeps_exactly_first_of_equal_fingerprints_witness :
    (applyDeltaDetection ⟨true, false, none, some 5⟩ 86400 "svc" (fun k => Int.ofNat k)
      [Json.num 1, Json.num 1, Json.num 1] ⟨50000, []⟩).kept = [Json.num 1] ∧
    (applyDeltaDetection ⟨true, false, none, some 5⟩ 86400 "svc" (fun k => Int.ofNat k)
      [Json.num 1, Json.num 1, Json.num 1] ⟨50000, []⟩).stats = ⟨2, 1, 3⟩ :=
  dedup_keeps_exactly_first_of_equal_fingerprints "svc" ⟨true, false, none, some 5⟩
    86400 5 (fun k => Int.ofNat k) (Json.num 1) (Json.num 1) (Json.num 1) ⟨50000, []⟩
    rfl rfl (by decide) rfl rfl rfl (by decide) (by decide)

theorem canonEntries_eq_map (es : List (String × Json)) :
    canonEntries es = es.map (fun e => (e.1, canon e.2)) := by
  induction es with
  | nil => rfl
  | cons e rest ih => rw [canonEntries, ih, List.map_cons]

theorem canonEntries_keys (es : List (String × Json)) :
    (canonEntries es).map Prod.fst = es.map Prod.fst := by
  rw [canonEntries_eq_map, List.map_map]
  rfl

theorem keyLe_trans (a b c : String × Json) (h1 : keyLe a b) (h2 : keyLe b c) : keyLe a c := by
  simp only [keyLe, decide_eq_true_eq] at h1 h2 ⊢
  exact le_trans h1 h2

theorem keyLe_total (a b : String × Json) : keyLe a b || keyLe b a := by
  simp only [keyLe, Bool.or_eq_true, decide_eq_true_eq]
  exact le_total a.1 b.1

theorem mergeSort_keyLe_pairwise_lt (entries : List (String × Json))
    (hnd : (entries.map Prod.fst).Nodup) :
    (entries.mergeSort keyLe).Pairwise (fun a b => a.1 < b.1) := by
  have hle : (entries.mergeSort keyLe).Pairwise (fun a b : String × Json => a.1 ≤ b.1) := by
    have h := @List.sorted_mergeSort _ keyLe keyLe_trans keyLe_total entries
    exact h.imp (fun hab => by simpa [keyLe] using hab)
  have hnd2 : ((entries.mergeSort keyLe).map Prod.fst).Nodup :=
    (((List.mergeSort_perm entries keyLe).map _).nodup_iff).mpr hnd
  have hne : (entries.mergeSort keyLe).Pairwise (fun a b : String × Json => a.1 ≠ b.1) := by
    rw [List.Nodup, List.pairwise_map] at hnd2
    exact hnd2
  exact (hle.and hne).imp (fun hab => lt_of_le_of_ne hab.1 hab.2)

theorem mergeSort_keyLe_eq_of_perm (X Y : List (String × Json))
    (hperm : List.Perm X Y) (hndX : (X.map Prod.fst).Nodup) :
    X.mergeSort keyLe = Y.mergeSort keyLe := by
  have hndY : (Y.map Prod.fst).Nodup := ((hperm.map _).nodup_iff).mp hndX
  have hpermS : List.Perm (X.mergeSort keyLe) (Y.mergeSort keyLe) :=
    (List.mergeSort_perm X keyLe).trans (hperm.trans (List.mergeSort_perm Y keyLe).symm)
  haveI : IsAntisymm (String × Json) (fun a b => a.1 < b.1) :=
    ⟨fun a b h1 h2 => (lt_asymm h1 h2).elim⟩
  exact List.eq_of_perm_of_sorted hpermS
    (mergeSort_keyLe_pairwise_lt X hndX) (mergeSort_keyLe_pairwise_lt Y hndY)

theorem keyPermEntries_keys : ∀ (es fs : List (String × Json)), KeyPermEntries es fs →
    es.map Prod.fst = fs.map Prod.fst
  | [], fs, h => by rw [show fs = [] from h]
  | e :: es, fs, h => by
    obtain ⟨f, fs2, rfl, hkey, _, hrest⟩ := h
    rw [List.map_cons, List.map_cons, hkey, keyPermEntries_keys es fs2 hrest]

mutual

theorem canon_keyPerm : ∀ (a b : Json), KeyPerm a b → canon a = canon b
  | .null, b, h => by rw [show b = .null from h]
  | .bool x, b, h => by rw [show b = .bool x from h]
  | .num n, b, h => by rw [show b = .num n from h]
  | .str s, b, h => by rw [show b = .str s from h]
  | .arr xs, b, h => by
    obtain ⟨ys, rfl, hl⟩ := h
    rw [canon, canon, canonList_keyPerm xs ys hl]
  | .obj es, b, h => by
    obtain ⟨fs, fs2, rfl, hnd, hrel, hperm⟩ := h
    rw [canon, canon]
    have hce : canonEntries es = canonEntries fs2 := canonEntries_keyPerm es fs2 hrel
    have hpermc : List.Perm (canonEntries fs2) (canonEntries fs) := by
      rw [canonEntries_eq_map, canonEntries_eq_map]
      exact hperm.map _
    have hndc : ((canonEntries es).map Prod.fst).Nodup := by
      rw [canonEntries_keys]
      exact hnd
    exact congrArg Json.obj
      (mergeSort_keyLe_eq_of_perm _ _ (hce ▸ hpermc) hndc)

theorem canonList_keyPerm : ∀ (xs ys : List Json), KeyPermList xs ys →
    canonList xs = canonList ys
  | [], ys, h => by rw [show ys = [] from h]
  | x :: xs, ys, h => by
    obtain ⟨y, ys2, rfl, hxy, hrest⟩ := h
    rw [canonList, canonList, canon_keyPerm x y hxy, canonList_keyPerm xs ys2 hrest]

theorem canonEntries_keyPerm : ∀ (es fs : List (String × Json)), KeyPermEntries es fs →
    canonEntries es = canonEntries fs
  | [], fs, h => by rw [show fs = [] from h]
  | e :: es, fs, h => by
    obtain ⟨f, fs2, rfl, hkey, hv, hrest⟩ := h
    rw [canonEntries, canonEntries, hkey, canon_keyPerm e.2 f.2 hv,
      canonEntries_keyPerm es fs2 hrest]

end

theorem lookupEntry_rel_keyPerm : ∀ (es fs : List (String × Json)),
    KeyPermEntries es fs → ∀ (k : String),
    (lookupEntry es k = none ∧ lookupEntry fs k = none) ∨
    (∃ v w, lookupEntry es k = some v ∧ lookupEntry fs k = some w ∧ KeyPerm v w)
  | [], fs, h, k => by
    rw [show fs = [] from h]
    exact Or.inl ⟨rfl, rfl⟩
  | e :: es, fs, h, k => by
    obtain ⟨f, fs2, rfl, hkey, hv, hrest⟩ := h
    by_cases hk : e.1 = k
    · refine Or.inr ⟨e.2, f.2, ?_, ?_, hv⟩
      · rw [lookupEntry, if_pos hk]
      · rw [lookupEntry, if_pos (hkey ▸ hk)]
    · rw [lookupEntry, if_neg hk, lookupEntry, if_neg (hkey ▸ hk)]
      exact lookupEntry_rel_keyPerm es fs2 hrest k

theorem lookupEntry_perm_of_nodup {β : Type} {fs2 fs : List (String × β)}
    (hperm : List.Perm fs2 fs) (hnd : (fs.map Prod.fst).Nodup) (k : String) :
    lookupEntry fs2 k = lookupEntry fs k := by
  induction hperm with
  | nil => rfl
  | cons x _ ih =>
    rw [List.map_cons, List.nodup_cons] at hnd
    by_cases hk : x.1 = k
    · rw [lookupEntry, if_pos hk, lookupEntry, if_pos hk]
    · rw [lookupEntry, if_neg hk, lookupEntry, if_neg hk]
      exact ih hnd.2
  | swap x y l =>
    rw [List.map_cons, List.map_cons, List.nodup_cons, List.mem_cons] at hnd
    push_neg at hnd
    by_cases hkx : x.1 = k
    · rw [lookupEntry, if_neg (fun hc => hnd.1.1 (hkx.trans hc.symm)), lookupEntry,
        if_pos hkx, lookupEntry, if_pos hkx]
    · by_cases hky : y.1 = k
      · rw [lookupEntry, if_pos hky, lookupEntry, if_neg hkx, lookupEntry, if_pos hky]
      · rw [lookupEntry, if_neg hky, lookupEntry, if_neg hkx, lookupEntry, if_neg hkx,
          lookupEntry, if_neg hky]
  | trans h1 h2 ih1 ih2 =>
    have hndmid := ((h2.map Prod.fst).nodup_iff).mpr hnd
    rw [ih1 hndmid, ih2 hnd]

theorem walkSegs_keyPerm : ∀ (segs : List String) (r1 r2 : Json), KeyPerm r1 r2 →
    KeyPerm (walkSegs r1 segs) (walkSegs r2 segs)
  | [], r1, r2, hkp => hkp
  | part :: rest, r1, r2, hkp => by
    match r1, hkp with
    | .null, hkp => rw [show r2 = .null from hkp]; exact rfl
    | .bool x, hkp => rw [show r2 = .bool x from hkp]; exact rfl
    | .num n, hkp => rw [show r2 = .num n from hkp]; exact rfl
    | .str s, hkp => rw [show r2 = .str s from hkp]; exact rfl
    | .arr xs, hkp =>
      obtain ⟨ys, rfl, _⟩ := hkp
      exact rfl
    | .obj es, hkp =>
      obtain ⟨fs, fs2, rfl, hnd, hrel, hperm⟩ := hkp
      have hndfs : (fs.map Prod.fst).Nodup := by
        have hkeys : es.map Prod.fst = fs2.map Prod.fst := keyPermEntries_keys es fs2 hrel
        exact ((hperm.map Prod.fst).nodup_iff).mp (hkeys ▸ hnd)
      have hl2 : lookupEntry fs2 part = lookupEntry fs part :=
        lookupEntry_perm_of_nodup hperm hndfs part
      rcases lookupEntry_rel_keyPerm es fs2 hrel part with ⟨h1, h2⟩ | ⟨v, w, h1, h2, hvw⟩
      · rw [walkSegs, walkSegs]
        rw [h1, ← hl2, h2]
        exact rfl
      · rw [walkSegs, walkSegs, h1, ← hl2, h2]
        exact walkSegs_keyPerm rest v w hvw

theorem keyPermEntries_filter (s : String) : ∀ (es fs : List (String × Json)),
    KeyPermEntries es fs →
    KeyPermEntries (es.filter (fun x => x.1 ≠ s)) (fs.filter (fun x => x.1 ≠ s))
  | [], fs, h => by
    rw [show fs = [] from h]
    rfl
  | e :: es, fs, h => by
    obtain ⟨f, fs2, rfl, hkey, hv, hrest⟩ := h
    by_cases hs : e.1 = s
    · rw [List.filter_cons, List.filter_cons, if_neg (by simp [hs]),
        if_neg (by simp [← hkey, hs])]
      exact keyPermEntries_filter s es fs2 hrest
    · rw [List.filter_cons, List.filter_cons, if_pos (by simpa using hs),
        if_pos (by simpa [← hkey] using hs)]
      exact ⟨f, fs2.filter (fun x => decide (x.1 ≠ s)), rfl, hkey, hv,
        keyPermEntries_filter s es fs2 hrest⟩

theorem dedupKeys_sublist : ∀ es : List (String × Json), List.Sublist (dedupKeys es) es
  | [] => by
    rw [dedupKeys]
  | e :: es => by
    rw [dedupKeys]
    exact List.Sublist.cons₂ e
      ((dedupKeys_sublist (es.filter (fun f => decide (f.1 ≠ e.1)))).trans
        (List.filter_sublist es))
termination_by es => es.length
decreasing_by
  simp only [List.length_cons]
  exact Nat.lt_succ_of_le (List.length_filter_le _ _)

theorem dedupKeys_keys_nodup : ∀ es : List (String × Json),
    ((dedupKeys es).map Prod.fst).Nodup
  | [] => by simp [dedupKeys]
  | e :: es => by
    rw [dedupKeys, List.map_cons, List.nodup_cons]
    constructor
    · intro hmem
      obtain ⟨x, hx, hxe⟩ := List.mem_map.mp hmem
      have hx2 : x ∈ es.filter (fun f => decide (f.1 ≠ e.1)) :=
        (dedupKeys_sublist _).subset hx
      have hne := (List.mem_filter.mp hx2).2
      simp only [decide_eq_true_eq] at hne
      exact hne hxe
    · exact dedupKeys_keys_nodup (es.filter (fun f => decide (f.1 ≠ e.1)))
termination_by es => es.length
decreasing_by
  simp only [List.length_cons]
  exact Nat.lt_succ_of_le (List.length_filter_le _ _)

theorem dedupKeys_keyPermEntries : ∀ (es fs : List (String × Json)),
    KeyPermEntries es fs → KeyPermEntries (dedupKeys es) (dedupKeys fs)
  | [], fs, h => by
    rw [show fs = [] from h, dedupKeys]
    rfl
  | e :: es, fs, h => by
    obtain ⟨f, fs2, rfl, hkey, hv, hrest⟩ := h
    rw [dedupKeys, dedupKeys, show f.1 = e.1 from hkey.symm]
    exact ⟨f, dedupKeys (fs2.filter (fun x => decide (x.1 ≠ e.1))), rfl, hkey, hv,
      dedupKeys_keyPermEntries _ _ (keyPermEntries_filter e.1 es fs2 hrest)⟩
termination_by es _ _ => es.length
decreasing_by
  simp only [List.length_cons]
  exact Nat.lt_succ_of_le (List.length_filter_le _ _)

theorem mapped_lookup_rel (r1 r2 : Json) (hkp : KeyPerm r1 r2) :
    ∀ ks : List String,
    KeyPermEntries (ks.map (fun k => (k, lookup_path r1 k)))
      (ks.map (fun k => (k, lookup_path r2 k)))
  | [] => rfl
  | k :: ks =>
    ⟨(k, lookup_path r2 k), ks.map (fun k => (k, lookup_path r2 k)), rfl, rfl,
      walkSegs_keyPerm (split_key k) r1 r2 hkp, mapped_lookup_rel r1 r2 hkp ks⟩

theorem fingerprint_payload_keyPerm (r1 r2 : Json) (keys : Option (List String))
    (source : String) (hkp : KeyPerm r1 r2) :
    fingerprint_payload r1 keys source = fingerprint_payload r2 keys source := by
  have hcanon : canon r1 = canon r2 := canon_keyPerm r1 r2 hkp
  cases keys with
  | none =>
    rw [fingerprint_payload, fingerprint_payload, dumpsSorted, dumpsSorted, hcanon]
  | some ks =>
    by_cases hks : ks.isEmpty
    · rw [fingerprint_payload, fingerprint_payload, if_pos hks, if_pos hks,
        dumpsSorted, dumpsSorted, hcanon]
    · rw [fingerprint_payload, fingerprint_payload, if_neg hks, if_neg hks]
      have hd := dedupKeys_keyPermEntries _ _ (mapped_lookup_rel r1 r2 hkp ks)
      have hnd := dedupKeys_keys_nodup (ks.map (fun k => (k, lookup_path r1 k)))
      have hobj : KeyPerm
          (.obj (dedupKeys (ks.map (fun k => (k, lookup_path r1 k)))))
          (.obj (dedupKeys (ks.map (fun k => (k, lookup_path r2 k))))) :=
        ⟨_, _, rfl, hnd, hd, List.Perm.refl _⟩
      rw [dumpsSorted, dumpsSorted, canon_keyPerm _ _ hobj]

/-- C9: for every source name and fingerprint-key configuration, two
records that are equal as key-value maps (same keys with map-equal
values, in any insertion order, at every nesting level) get the same
fingerprint: fingerprint_payload serializes with sorted keys, so
compute_hash sees the same payload string.  Fingerprint key paths are
record-scoped (a root-scoped path raises ShapeMismatch instead). -/
theorem fingerprint_independent_of_key_order (source : String)
    (keys : Option (List String)) (r1 r2 : Json) (hkp : KeyPerm r1 r2)
    (hroot : ∀ ks, keys = some ks → ∀ k ∈ ks, ¬ k.startsWith "$root.") :
    compute_hash (fingerprint_payload r1 keys source) =
      compute_hash (fingerprint_payload r2 keys source) :=
  congrArg compute_hash (fingerprint_payload_keyPerm r1 r2 keys source hkp)

/-- Witness for C9 at a two-key record and its key-reversed form. -/
theorem fingerprint_independent_of_key_order_witness :
    compute_hash (fingerprint_payload
        (Json.obj [("a", Json.num 1), ("b", Json.num 2)]) none "svc") =
      compute_hash (fingerprint_payload
        (Json.obj [("b", Json.num 2), ("a", Json.num 1)]) none "svc") :=
  fingerprint_independent_of_key_order "svc" none _ _
    (by
      refine ⟨[("b", Json.num 2), ("a", Json.num 1)],
        [("a", Json.num 1), ("b", Json.num 2)], rfl, by decide, ?_, ?_⟩
      · exact ⟨("a", Json.num 1), [("b", Json.num 2)], rfl, rfl, rfl,
          ⟨("b", Json.num 2), [], rfl, rfl, rfl, rfl⟩⟩
      · exact List.Perm.swap ("b", Json.num 2) ("a", Json.num 1) [])
    (fun ks h => nomatch h)

end OtelScraper
